import Mathlib

set_option maxRecDepth 40000

/-!
Verification of `src/temp_fix_quote.py`, a throwaway patch script that reads one
file, performs `content.replace(old_text, new_text)` with two hardcoded string
literals, writes the result back, and reports completion on standard output.

Strings are modelled as lists of Unicode code points (`List Char`), matching the
Python type `str` (a sequence of code points).  The Python method
`str.replace(old, new)` scans left to right and replaces every non-overlapping
occurrence of `old` by `new`; it is embedded below as `strReplace`, implemented
with a structural fuel argument so that all definitions compute by kernel
reduction.
-/

namespace TempFixQuote

/-- The hardcoded literal `old_text` from line 8 of the script.  Note that the
source bytes are plain ASCII: the outer quotation marks are U+0022 and the
apostrophe (escaped as backslash-quote in the Python source) is U+0027, written
here with the escape x27. -/
def old_text : List Char :=
  ("\"Your energy really connects with the audience. Let\x27s refine your pacing so your impact is even stronger.\"").data

/-- The hardcoded literal `new_text` from line 9 of the script (all ASCII;
apostrophes are U+0027). -/
def new_text : List Char :=
  ("\"Look, you\x27ve got energy, I\x27ll give you that. But your pacing? It\x27s like watching a sloth try to deliver a TED Talk. Let\x27s fix that disaster before your next presentation.\"").data

/-- Fueled core of Python `str.replace` for a nonempty pattern `o :: os`:
scan the text left to right; at each position, if the pattern is a prefix of
the remaining text, emit `new` and resume after the matched block, otherwise
copy one character.  The fuel only bounds the recursion depth; any fuel at
least the length of the text gives the function Python means (see
`replaceFuel_irrel`). -/
def replaceFuel (o : Char) (os new : List Char) : Nat → List Char → List Char
  | _, [] => []
  | 0, s => s
  | fuel+1, c :: rest =>
    if (o :: os).isPrefixOf (c :: rest) then
      new ++ replaceFuel o os new fuel (rest.drop os.length)
    else
      c :: replaceFuel o os new fuel rest

/-- Embedding of Python `s.replace(old, new)` on code-point lists.  For an
empty pattern Python inserts `new` before every character and at the end; for
a nonempty pattern it is the left-to-right non-overlapping scan
`replaceFuel`, run with fuel `s.length`. -/
def strReplace (old new s : List Char) : List Char :=
  match old with
  | [] => new ++ s.foldr (fun c acc => c :: (new ++ acc)) []
  | o :: os => replaceFuel o os new s.length s

/-- Line 12 of the script: the pure content transformation
`content.replace(old_text, new_text)`. -/
def patchContent (content : List Char) : List Char :=
  strReplace old_text new_text content

/-- Decidable substring occurrence test: `containsB pat s` is true when `pat`
occurs as a contiguous block somewhere in `s`. -/
def containsB (pat : List Char) : List Char → Bool
  | [] => pat.isPrefixOf []
  | c :: rest => pat.isPrefixOf (c :: rest) || containsB pat rest

/-- Number of positions of `s` at which `pat` starts an occurrence (also counts
mutually overlapping occurrences once per start position). -/
def occCount (pat : List Char) : List Char → Nat
  | [] => 0
  | c :: rest => (if pat.isPrefixOf (c :: rest) then 1 else 0) + occCount pat rest

section PrefixLemmas

lemma isP_append_self (p t : List Char) : p.isPrefixOf (p ++ t) = true := by
  induction p with
  | nil => simp [List.isPrefixOf]
  | cons c cs ih => simp [List.isPrefixOf, ih]

lemma isP_refl (p : List Char) : p.isPrefixOf p = true := by
  induction p with
  | nil => rfl
  | cons c cs ih => simp [List.isPrefixOf, ih]

lemma isP_exists {p s : List Char} : p.isPrefixOf s = true ↔ ∃ t, s = p ++ t := by
  induction p generalizing s with
  | nil => simp [List.isPrefixOf]
  | cons c cs ih =>
    cases s with
    | nil => simp [List.isPrefixOf]
    | cons b bs =>
      simp only [List.isPrefixOf, Bool.and_eq_true, beq_iff_eq, ih, List.cons_append,
        List.cons.injEq]
      constructor
      · rintro ⟨rfl, t, rfl⟩; exact ⟨t, rfl, rfl⟩
      · rintro ⟨t, rfl, rfl⟩; exact ⟨rfl, t, rfl⟩

lemma isP_length {p s : List Char} (h : p.isPrefixOf s = true) : p.length ≤ s.length := by
  rcases isP_exists.mp h with ⟨t, rfl⟩
  simp

lemma isP_append_ext {p u : List Char} (t : List Char) (h : p.isPrefixOf u = true) :
    p.isPrefixOf (u ++ t) = true := by
  rcases isP_exists.mp h with ⟨w, rfl⟩
  rw [List.append_assoc]
  exact isP_append_self p (w ++ t)

lemma isP_trans {p u v : List Char} (h1 : p.isPrefixOf u = true)
    (h2 : u.isPrefixOf v = true) : p.isPrefixOf v = true := by
  rcases isP_exists.mp h2 with ⟨w, rfl⟩
  exact isP_append_ext w h1

lemma isP_split {p u t : List Char} (h : p.isPrefixOf (u ++ t) = true) :
    p.isPrefixOf u = true ∨ u.isPrefixOf p = true := by
  induction p generalizing u with
  | nil => exact Or.inl (by simp [List.isPrefixOf])
  | cons c cs ih =>
    cases u with
    | nil => exact Or.inr (by simp [List.isPrefixOf])
    | cons b bs =>
      simp only [List.cons_append, List.isPrefixOf, Bool.and_eq_true, beq_iff_eq] at h ⊢
      rcases ih h.2 with h2 | h2
      · exact Or.inl ⟨h.1, h2⟩
      · exact Or.inr ⟨h.1.symm, h2⟩

lemma isP_eq_of_length {p s : List Char} (h : p.isPrefixOf s = true)
    (hl : s.length ≤ p.length) : p = s := by
  rcases isP_exists.mp h with ⟨t, rfl⟩
  cases t with
  | nil => simp
  | cons x xs =>
    exfalso
    simp only [List.length_append, List.length_cons] at hl
    omega

end PrefixLemmas

section ContainsLemmas

lemma containsB_cons (pat : List Char) (c : Char) (rest : List Char) :
    containsB pat (c :: rest) = (pat.isPrefixOf (c :: rest) || containsB pat rest) := rfl

lemma containsB_of_isP {o : Char} {os s : List Char}
    (h : (o :: os).isPrefixOf s = true) : containsB (o :: os) s = true := by
  cases s with
  | nil => simp [List.isPrefixOf] at h
  | cons c rest => simp [containsB_cons, h]

lemma containsB_length {pat s : List Char} (h : containsB pat s = true) :
    pat.length ≤ s.length := by
  induction s with
  | nil =>
    simp [containsB, List.isPrefixOf] at h
    simp [h]
  | cons c rest ih =>
    rw [containsB_cons, Bool.or_eq_true] at h
    rcases h with h | h
    · exact isP_length h
    · exact Nat.le_trans (ih h) (by simp)

lemma containsB_of_short {pat s : List Char} (h : s.length < pat.length) :
    containsB pat s = false := by
  cases hc : containsB pat s with
  | false => rfl
  | true => exact absurd (containsB_length hc) (by omega)

lemma containsB_tail {pat : List Char} {c : Char} {rest : List Char}
    (h : containsB pat (c :: rest) = false) : containsB pat rest = false := by
  rw [containsB_cons, Bool.or_eq_false_iff] at h
  exact h.2

lemma containsB_head_false {pat : List Char} {c : Char} {rest : List Char}
    (h : containsB pat (c :: rest) = false) : pat.isPrefixOf (c :: rest) = false := by
  rw [containsB_cons, Bool.or_eq_false_iff] at h
  exact h.1

lemma containsB_append_left {pat u : List Char} (t : List Char)
    (h : containsB pat u = true) : containsB pat (u ++ t) = true := by
  induction u with
  | nil =>
    simp [containsB, List.isPrefixOf] at h
    subst h
    cases t with
    | nil => simp [containsB, List.isPrefixOf]
    | cons b bs => simp [containsB_cons, List.isPrefixOf]
  | cons c rest ih =>
    rw [containsB_cons, Bool.or_eq_true] at h
    rw [List.cons_append, containsB_cons, Bool.or_eq_true]
    rcases h with h | h
    · exact Or.inl (isP_append_ext t h)
    · exact Or.inr (ih h)

lemma containsB_append_right {pat t : List Char} (u : List Char)
    (h : containsB pat t = true) : containsB pat (u ++ t) = true := by
  induction u with
  | nil => simpa using h
  | cons c rest ih => simp [containsB_cons, ih]

end ContainsLemmas

section OccCountLemmas

lemma occCount_zero_iff {o : Char} {os s : List Char} :
    occCount (o :: os) s = 0 ↔ containsB (o :: os) s = false := by
  induction s with
  | nil => simp [occCount, containsB, List.isPrefixOf]
  | cons c rest ih =>
    rw [containsB_cons, Bool.or_eq_false_iff]
    cases hp : (o :: os).isPrefixOf (c :: rest) with
    | false => simp [occCount, hp, ih]
    | true => simp [occCount, hp]

lemma occCount_append_le (pat u t : List Char) :
    occCount pat t ≤ occCount pat (u ++ t) := by
  induction u with
  | nil => simp
  | cons c rest ih =>
    rw [List.cons_append]
    show occCount pat t ≤ (if pat.isPrefixOf (c :: (rest ++ t)) then 1 else 0) + occCount pat (rest ++ t)
    omega

lemma occCount_pos_of_contains {o : Char} {os t : List Char}
    (h : containsB (o :: os) t = true) : 1 ≤ occCount (o :: os) t := by
  cases hz : occCount (o :: os) t with
  | zero => rw [occCount_zero_iff.mp hz] at h; exact absurd h (by simp)
  | succ n => omega

end OccCountLemmas

section ReplaceLemmas

lemma replaceFuel_nil (o : Char) (os new : List Char) (f : Nat) :
    replaceFuel o os new f [] = [] := by
  cases f <;> rfl

lemma replaceFuel_cons (o : Char) (os new : List Char) (f : Nat) (c : Char)
    (rest : List Char) :
    replaceFuel o os new (f + 1) (c :: rest) =
      if (o :: os).isPrefixOf (c :: rest) then
        new ++ replaceFuel o os new f (rest.drop os.length)
      else
        c :: replaceFuel o os new f rest := rfl

/-- The result of `replaceFuel` does not depend on the fuel, as long as the
fuel dominates the length of the text. -/
lemma replaceFuel_irrel (o : Char) (os new : List Char) :
    ∀ f1 f2 s, s.length ≤ f1 → s.length ≤ f2 →
      replaceFuel o os new f1 s = replaceFuel o os new f2 s := by
  intro f1
  induction f1 with
  | zero =>
    intro f2 s h1 _
    have : s = [] := List.eq_nil_of_length_eq_zero (Nat.le_zero.mp h1)
    subst this
    rw [replaceFuel_nil, replaceFuel_nil]
  | succ f ih =>
    intro f2 s h1 h2
    cases s with
    | nil => rw [replaceFuel_nil, replaceFuel_nil]
    | cons c rest =>
      cases f2 with
      | zero => simp at h2
      | succ f2 =>
        simp only [List.length_cons] at h1 h2
        have hd : (rest.drop os.length).length ≤ rest.length := by
          rw [List.length_drop]; omega
        cases hp : (o :: os).isPrefixOf (c :: rest) with
        | true =>
          rw [replaceFuel_cons, replaceFuel_cons, if_pos hp, if_pos hp]
          exact congrArg (new ++ ·) (ih f2 (rest.drop os.length) (by omega) (by omega))
        | false =>
          rw [replaceFuel_cons, replaceFuel_cons,
            if_neg (by simp [hp]), if_neg (by simp [hp])]
          exact congrArg (c :: ·) (ih f2 rest (by omega) (by omega))

/-- If the pattern does not occur in the text, the scan copies the text
unchanged. -/
lemma replaceFuel_noop (o : Char) (os new : List Char) :
    ∀ f s, containsB (o :: os) s = false → s.length ≤ f →
      replaceFuel o os new f s = s := by
  intro f
  induction f with
  | zero =>
    intro s _ h1
    have : s = [] := List.eq_nil_of_length_eq_zero (Nat.le_zero.mp h1)
    subst this
    exact replaceFuel_nil o os new 0
  | succ f ih =>
    intro s hc hl
    cases s with
    | nil => exact replaceFuel_nil o os new (f + 1)
    | cons c rest =>
      rw [replaceFuel_cons, containsB_head_false hc, if_neg (by simp)]
      simp only [List.length_cons] at hl
      rw [ih rest (containsB_tail hc) (by omega)]

/-- Key structure lemma for the left-to-right scan: if no occurrence of the
pattern starts strictly inside `a` (no occurrence of the pattern inside `a`
followed by the pattern minus its final character), then on `a ++ pattern ++ b`
the scan copies `a`, replaces the displayed occurrence, and continues on `b`
alone. -/
lemma replaceFuel_append (o : Char) (os new : List Char) :
    ∀ a f b, containsB (o :: os) (a ++ (o :: os).dropLast) = false →
      a.length + (os.length + 1) + b.length ≤ f →
      replaceFuel o os new f (a ++ (o :: os) ++ b) =
        a ++ new ++ replaceFuel o os new b.length b := by
  intro a
  induction a with
  | nil =>
    intro f b _ hl
    simp only [List.length_nil, Nat.zero_add] at hl
    cases f with
    | zero => omega
    | succ f =>
      simp only [List.nil_append]
      rw [show (o :: os) ++ b = o :: (os ++ b) from rfl, replaceFuel_cons,
        if_pos (by exact isP_append_self (o :: os) b)]
      rw [List.drop_left]
      exact congrArg (new ++ ·) (replaceFuel_irrel o os new f b.length b (by omega) (by omega))
  | cons x a' ih =>
    intro f b hc hl
    simp only [List.cons_append] at hc
    have hcd : containsB (o :: os) (a' ++ (o :: os).dropLast) = false := containsB_tail hc
    simp only [List.length_cons] at hl
    cases f with
    | zero => omega
    | succ f =>
      cases hp : (o :: os).isPrefixOf (x :: (a' ++ (o :: os) ++ b)) with
      | true =>
        exfalso
        have hzd : (o :: os).dropLast ++ [(o :: os).getLast (by simp)] = o :: os :=
          List.dropLast_append_getLast (by simp)
        have hshape : x :: (a' ++ (o :: os) ++ b) =
            (x :: (a' ++ (o :: os).dropLast)) ++ ((o :: os).getLast (by simp) :: b) := by
          conv_lhs => rw [← hzd]
          simp [List.append_assoc]
        rw [hshape] at hp
        have hdl : (o :: os).dropLast.length = os.length := by
          simp [List.length_dropLast]
        rcases isP_split hp with h1 | h1
        · have hcontra := containsB_of_isP h1
          rw [hc] at hcontra
          simp at hcontra
        · have hlen := isP_length h1
          simp only [List.length_cons, List.length_append, hdl] at hlen
          have ha' : a' = [] := List.eq_nil_of_length_eq_zero (by omega)
          subst ha'
          have heq := isP_eq_of_length h1 (by
            simp [List.length_cons, List.length_append, hdl])
          simp only [List.nil_append] at heq hc
          rw [heq] at hc
          have hcontra := containsB_of_isP (isP_refl (o :: os))
          rw [hc] at hcontra
          simp at hcontra
      | false =>
        simp only [List.cons_append]
        rw [replaceFuel_cons, if_neg (by rw [hp]; simp)]
        rw [ih f b hcd (by omega)]

lemma strReplace_nil (o : Char) (os new : List Char) :
    strReplace (o :: os) new [] = [] := rfl

lemma strReplace_noop {o : Char} {os new s : List Char}
    (h : containsB (o :: os) s = false) : strReplace (o :: os) new s = s :=
  replaceFuel_noop o os new s.length s h (Nat.le_refl _)

lemma strReplace_append {o : Char} {os new a b : List Char}
    (h : containsB (o :: os) (a ++ (o :: os).dropLast) = false) :
    strReplace (o :: os) new (a ++ (o :: os) ++ b) =
      a ++ new ++ strReplace (o :: os) new b := by
  show replaceFuel o os new (a ++ (o :: os) ++ b).length (a ++ (o :: os) ++ b) = _
  rw [replaceFuel_append o os new a _ b h
    (by simp only [List.length_append, List.length_cons]; omega)]
  rfl

/-- Every text containing the pattern splits at the first occurrence: the part
before it contains no occurrence, not even one spilling into the occurrence
itself. -/
lemma extractFirst {o : Char} {os : List Char} :
    ∀ {s : List Char}, containsB (o :: os) s = true →
      ∃ a b, s = a ++ (o :: os) ++ b ∧
        containsB (o :: os) (a ++ (o :: os).dropLast) = false := by
  intro s
  induction s with
  | nil => intro h; rw [containsB] at h; simp [List.isPrefixOf] at h
  | cons c rest ih =>
    intro h
    cases hp : (o :: os).isPrefixOf (c :: rest) with
    | true =>
      rcases isP_exists.mp hp with ⟨b, hb⟩
      refine ⟨[], b, by simpa using hb, ?_⟩
      simp only [List.nil_append]
      exact containsB_of_short (by rw [List.length_dropLast]; simp)
    | false =>
      have h2 : containsB (o :: os) rest = true := by
        rw [containsB_cons, hp] at h
        simpa using h
      rcases ih h2 with ⟨a, b, hb, hcl⟩
      refine ⟨c :: a, b, by simp [hb], ?_⟩
      have hzd : (o :: os).dropLast ++ [(o :: os).getLast (by simp)] = o :: os :=
        List.dropLast_append_getLast (by simp)
      have hshape : c :: rest =
          (c :: (a ++ (o :: os).dropLast)) ++ ((o :: os).getLast (by simp) :: b) := by
        rw [hb]
        conv_lhs => rw [← hzd]
        simp [List.append_assoc]
      have hpf : (o :: os).isPrefixOf (c :: (a ++ (o :: os).dropLast)) = false := by
        cases hq : (o :: os).isPrefixOf (c :: (a ++ (o :: os).dropLast)) with
        | false => rfl
        | true =>
          exfalso
          have hin : (o :: os).isPrefixOf (c :: rest) = true := by
            rw [hshape]
            exact isP_append_ext _ hq
          rw [hp] at hin
          simp at hin
      rw [List.cons_append, containsB_cons, hpf, hcl]
      rfl

lemma occCount_cons (pat : List Char) (c : Char) (rest : List Char) :
    occCount pat (c :: rest) =
      (if pat.isPrefixOf (c :: rest) then 1 else 0) + occCount pat rest := rfl

/-- When a text with at most one occurrence start splits around an occurrence,
the part after the occurrence is occurrence-free. -/
lemma tail_no_occ {o : Char} {os a b : List Char}
    (h1 : occCount (o :: os) (a ++ (o :: os) ++ b) ≤ 1) :
    containsB (o :: os) b = false := by
  cases hc : containsB (o :: os) b with
  | false => rfl
  | true =>
    exfalso
    have hb := occCount_pos_of_contains hc
    have e1 : occCount (o :: os) ((o :: os) ++ b) =
        1 + occCount (o :: os) (os ++ b) := by
      rw [show (o :: os) ++ b = o :: (os ++ b) from rfl, occCount_cons,
        if_pos (by exact isP_append_self (o :: os) b)]
    have e2 := occCount_append_le (o :: os) os b
    have e3 := occCount_append_le (o :: os) a ((o :: os) ++ b)
    have h2 : occCount (o :: os) (a ++ ((o :: os) ++ b)) ≤ 1 := by
      rw [← List.append_assoc]
      exact h1
    omega

end ReplaceLemmas

/-- `joinWith sep [p0, p1, ..., pn]` is `p0 ++ sep ++ p1 ++ sep ++ ... ++ pn`:
the text whose non-overlapping occurrences of `sep` sit exactly between the
listed gap segments. -/
def joinWith (sep : List Char) : List (List Char) → List Char
  | [] => []
  | [p] => p
  | p :: q :: rest => p ++ sep ++ joinWith sep (q :: rest)

/-- The gap segments of a left-to-right non-overlapping scan: no occurrence of
the pattern inside any segment and, for segments other than the last, none
starting inside the segment and spilling into the pattern block that follows
it. -/
def cleanPartsB (pat : List Char) : List (List Char) → Bool
  | [] => true
  | [p] => !(containsB pat p)
  | p :: q :: rest => !(containsB pat (p ++ pat.dropLast)) && cleanPartsB pat (q :: rest)

/-- The scan replaces each of the `N` non-overlapping occurrences exhibited by
a clean gap decomposition, left to right. -/
lemma strReplace_joinWith {o : Char} {os new : List Char} :
    ∀ parts, cleanPartsB (o :: os) parts = true →
      strReplace (o :: os) new (joinWith (o :: os) parts) = joinWith new parts := by
  intro parts
  induction parts with
  | nil => intro _; rfl
  | cons p rest ih =>
    cases rest with
    | nil =>
      intro h
      simp only [cleanPartsB, Bool.not_eq_true'] at h
      show strReplace (o :: os) new p = p
      exact strReplace_noop h
    | cons q rest' =>
      intro h
      simp only [cleanPartsB, Bool.and_eq_true, Bool.not_eq_true'] at h
      show strReplace (o :: os) new (p ++ (o :: os) ++ joinWith (o :: os) (q :: rest')) =
        p ++ new ++ joinWith new (q :: rest')
      rw [strReplace_append h.1, ih h.2]

/-!
## The hardcoded pattern

The lemmas above handle an arbitrary nonempty pattern `o :: os`; the script
always uses the nonempty literal `old_text`.  The following wrappers
specialise them to the transformation of line 12.
-/

lemma patch_noop {s : List Char} (h : containsB old_text s = false) :
    patchContent s = s := by
  show strReplace old_text new_text s = s
  cases ho : old_text with
  | nil => exact absurd ho (by decide)
  | cons o os =>
    rw [ho] at h
    exact strReplace_noop h

lemma patch_append {a b : List Char}
    (h : containsB old_text (a ++ old_text.dropLast) = false) :
    patchContent (a ++ old_text ++ b) = a ++ new_text ++ patchContent b := by
  show strReplace old_text new_text (a ++ old_text ++ b) =
    a ++ new_text ++ strReplace old_text new_text b
  cases ho : old_text with
  | nil => exact absurd ho (by decide)
  | cons o os =>
    rw [ho] at h
    exact strReplace_append h

lemma patch_joinWith {parts : List (List Char)}
    (h : cleanPartsB old_text parts = true) :
    patchContent (joinWith old_text parts) = joinWith new_text parts := by
  show strReplace old_text new_text (joinWith old_text parts) = joinWith new_text parts
  cases ho : old_text with
  | nil => exact absurd ho (by decide)
  | cons o os =>
    rw [ho] at h
    exact strReplace_joinWith parts h

lemma patch_extractFirst {s : List Char} (h : containsB old_text s = true) :
    ∃ a b, s = a ++ old_text ++ b ∧
      containsB old_text (a ++ old_text.dropLast) = false := by
  cases ho : old_text with
  | nil => exact absurd ho (by decide)
  | cons o os =>
    rw [ho] at h
    exact extractFirst h

lemma patch_tail_no_occ {a b : List Char}
    (h : occCount old_text (a ++ old_text ++ b) ≤ 1) :
    containsB old_text b = false := by
  cases ho : old_text with
  | nil => exact absurd ho (by decide)
  | cons o os =>
    rw [ho] at h
    exact tail_no_occ h

lemma patch_occ_zero {s : List Char} :
    occCount old_text s = 0 ↔ containsB old_text s = false := by
  cases ho : old_text with
  | nil => exact absurd ho (by decide)
  | cons o os => exact occCount_zero_iff

/-!
## Model of one run of the script

The script is a straight line: open for reading (line 4; this fails with a
file-access error when the path is missing or unreadable), decode and read
(line 5; this fails with a decode error when the bytes are not valid UTF-8),
apply the replacement (line 12), open for writing with truncation and write
(lines 14 and 15), print the confirmation (line 17).  The persistent state of
the one target path is modelled by `FileState`; a readable text file carries
its decoded code points.
-/

/-- Contents of an existing file: either bytes that decode as UTF-8, carrying
the decoded code points, or bytes that do not. -/
inductive FileData where
  | text : List Char → FileData
  | binary : FileData
deriving DecidableEq

/-- State of the target path before or after a run. -/
inductive FileState where
  | missing : FileState
  | noPermission : FileState
  | present : FileData → FileState
deriving DecidableEq

/-- How a run of the script ends: normal completion, an unhandled OSError
from `open` (missing file or permission denied), or an unhandled
UnicodeDecodeError from the read.  The two error outcomes terminate the
process before the write is reached. -/
inductive ScriptOutcome where
  | ok : ScriptOutcome
  | fileAccessError : ScriptOutcome
  | decodeError : ScriptOutcome
deriving DecidableEq

/-- Observable result of one run: how it ended, the final state of the target
file, and the lines printed on standard output. -/
structure RunOutcome where
  result : ScriptOutcome
  fs : FileState
  stdout : List String
deriving DecidableEq

/-- One run of `temp_fix_quote.py` against the target file in state `fs`. -/
def runScript (fs : FileState) : RunOutcome :=
  match fs with
  | FileState.missing => ⟨ScriptOutcome.fileAccessError, FileState.missing, []⟩
  | FileState.noPermission => ⟨ScriptOutcome.fileAccessError, FileState.noPermission, []⟩
  | FileState.present FileData.binary =>
      ⟨ScriptOutcome.decodeError, FileState.present FileData.binary, []⟩
  | FileState.present (FileData.text content) =>
      ⟨ScriptOutcome.ok, FileState.present (FileData.text (patchContent content)),
        [("Replacement complete")]⟩

/-- Externally visible events of a run, in program order. -/
inductive Event where
  | readDone : List Char → Event
  | writeDone : List Char → Event
  | printedLine : String → Event
deriving DecidableEq

/-- Trace of a successful run on a readable UTF-8 file with contents
`content`: the read of lines 4 and 5, the write of the replaced contents of
lines 14 and 15, then the confirmation print of line 17. -/
def scriptTrace (content : List Char) : List Event :=
  [Event.readDone content,
   Event.writeDone (patchContent content),
   Event.printedLine ("Replacement complete")]

/-- Recognises standard-output events. -/
def isPrinted : Event → Bool
  | Event.printedLine _ => true
  | _ => false

/-- The invariant stated by the spec (section 3): the contents before and
after a run are identical outside at most one occurrence of `old_text`, which
becomes `new_text`; with no occurrence, the contents are unchanged.  This
definition follows the words of the spec, to be compared with the behaviour
of `patchContent`. -/
def diffAtMostOneOcc (before after : List Char) : Prop :=
  (containsB old_text before = false ∧ after = before) ∨
  (∃ a b, before = a ++ old_text ++ b ∧ after = a ++ new_text ++ b)

/-- A run on contents with at most one occurrence start of the old literal
satisfies the spec invariant `diffAtMostOneOcc`. -/
lemma patch_diffAtMostOne {content : List Char}
    (h : occCount old_text content ≤ 1) :
    diffAtMostOneOcc content (patchContent content) := by
  cases hc : containsB old_text content with
  | false => exact Or.inl ⟨hc, patch_noop hc⟩
  | true =>
    rcases patch_extractFirst hc with ⟨a, b, hb, hcl⟩
    subst hb
    have htail : containsB old_text b = false := patch_tail_no_occ h
    refine Or.inr ⟨a, b, rfl, ?_⟩
    rw [patch_append hcl, patch_noop htail]

/-- Sample Unicode-rich left context for witnesses (na&iuml;ve, an em dash, a
typographic quotation, a music note). -/
def uniA : List Char := ("naïve — “♫” ").data

/-- Sample Unicode-rich right context for witnesses (typographic single
quotation marks and a check mark). -/
def uniB : List Char := (" ‘très bien’ ✓").data

/-- The old literal with its ASCII quotation marks replaced by typographic
curly ones: a normalisation variant that must NOT be matched. -/
def curlyVariant : List Char :=
  old_text.map (fun c => if c = '"' then '“' else c)

/-!
## The claims
-/

/-- C1: for every input file content, the patch operation overwrites the file
with the original content in which every exact, non-overlapping occurrence of
`old_text` (scanned left to right) has been replaced by `new_text`: for a
content decomposing into gap segments around `N` non-overlapping occurrences,
all `N` are replaced. -/
theorem claim_C1 (parts : List (List Char))
    (h : cleanPartsB old_text parts = true) :
    runScript (FileState.present (FileData.text (joinWith old_text parts))) =
      ⟨ScriptOutcome.ok,
        FileState.present (FileData.text (joinWith new_text parts)),
        [("Replacement complete")]⟩ := by
  have e := patch_joinWith h
  show RunOutcome.mk ScriptOutcome.ok
      (FileState.present (FileData.text (patchContent (joinWith old_text parts))))
      [("Replacement complete")] = _
  rw [e]

theorem claim_C1_witness :
    cleanPartsB old_text [("intro ").data, (" middle ").data, (" outro").data] = true ∧
    runScript (FileState.present (FileData.text
        (joinWith old_text [("intro ").data, (" middle ").data, (" outro").data]))) =
      ⟨ScriptOutcome.ok,
        FileState.present (FileData.text
          (joinWith new_text [("intro ").data, (" middle ").data, (" outro").data])),
        [("Replacement complete")]⟩ :=
  ⟨by decide, claim_C1 [("intro ").data, (" middle ").data, (" outro").data] (by decide)⟩

/-- C2 as stated is false: with two occurrences of the old literal both are
replaced, so the before and after contents do not differ in only one (at most
one) occurrence.  Concretely, `old_text ++ old_text` becomes
`new_text ++ new_text`, and no single-occurrence decomposition relates the
two (the literals have different lengths). -/
theorem claim_C2_counterexample :
    ¬ diffAtMostOneOcc (old_text ++ old_text)
        (patchContent (old_text ++ old_text)) := by
  intro hdiff
  have hpp : patchContent (old_text ++ old_text) = new_text ++ new_text := by decide
  have hol : old_text.length = 106 := by decide
  have hnl : new_text.length = 172 := by decide
  rcases hdiff with ⟨-, heq⟩ | ⟨a, b, hb, ha⟩
  · rw [hpp] at heq
    have hlen := congrArg List.length heq
    simp only [List.length_append] at hlen
    omega
  · rw [hpp] at ha
    have hlen1 := congrArg List.length hb
    have hlen2 := congrArg List.length ha
    simp only [List.length_append] at hlen1 hlen2
    omega

/-- C2 amended: for every input content in which at most one occurrence of
`old_text` starts, the file on disk before and after the run differ only in
that (at most one) occurrence, which becomes `new_text`; contents with more
occurrences have every occurrence replaced (claim C1). -/
theorem claim_C2_amended (content : List Char)
    (h : occCount old_text content ≤ 1) :
    diffAtMostOneOcc content (patchContent content) ∧
    (runScript (FileState.present (FileData.text content))).fs =
      FileState.present (FileData.text (patchContent content)) :=
  ⟨patch_diffAtMostOne h, rfl⟩

theorem claim_C2_witness :
    occCount old_text (("pre ").data ++ old_text ++ (" post").data) ≤ 1 ∧
    (diffAtMostOneOcc (("pre ").data ++ old_text ++ (" post").data)
        (patchContent (("pre ").data ++ old_text ++ (" post").data)) ∧
      (runScript (FileState.present (FileData.text
          (("pre ").data ++ old_text ++ (" post").data)))).fs =
        FileState.present (FileData.text
          (patchContent (("pre ").data ++ old_text ++ (" post").data)))) :=
  ⟨by decide, claim_C2_amended (("pre ").data ++ old_text ++ (" post").data) (by decide)⟩

/-- C3: a content with zero occurrences of the old literal is rewritten
byte-for-byte identical: the run succeeds, writes the unchanged content back,
and prints the confirmation (zero matches is a successful no-op, not an
error). -/
theorem claim_C3 (content : List Char)
    (h : containsB old_text content = false) :
    runScript (FileState.present (FileData.text content)) =
      ⟨ScriptOutcome.ok, FileState.present (FileData.text content),
        [("Replacement complete")]⟩ := by
  have e := patch_noop h
  show RunOutcome.mk ScriptOutcome.ok
      (FileState.present (FileData.text (patchContent content)))
      [("Replacement complete")] = _
  rw [e]

theorem claim_C3_witness :
    containsB old_text (("Hello, world!").data) = false ∧
    runScript (FileState.present (FileData.text (("Hello, world!").data))) =
      ⟨ScriptOutcome.ok, FileState.present (FileData.text (("Hello, world!").data)),
        [("Replacement complete")]⟩ :=
  ⟨by decide, claim_C3 (("Hello, world!").data) (by decide)⟩

/-- C4 as stated (running the patch function twice yields the same content as
running it once, for every input content) is false: the first application can
itself create a fresh occurrence of the old literal, which the second
application then replaces.  Concretely, on `old_text ++ old_text.drop 1` the
first run produces `new_text ++ old_text.drop 1`, whose final characters spell
`old_text` again (the last character of `new_text` is the quotation mark that
opens `old_text`), so the second run changes the content once more. -/
theorem claim_C4_counterexample :
    patchContent (patchContent (old_text ++ old_text.drop 1)) ≠
      patchContent (old_text ++ old_text.drop 1) := by decide

/-- C4 amended: a second application is a no-op for every input content whose
first-run output no longer contains the old literal (the precondition the
claim assumed; it does not hold for all contents). -/
theorem claim_C4_amended (content : List Char)
    (h : containsB old_text (patchContent content) = false) :
    patchContent (patchContent content) = patchContent content :=
  patch_noop h

theorem claim_C4_witness :
    containsB old_text (patchContent old_text) = false ∧
    patchContent (patchContent old_text) = patchContent old_text :=
  ⟨by decide, claim_C4_amended old_text (by decide)⟩

/-- C5: when the target path cannot be opened for reading (missing file or
permission denied), the run fails with a file-access error, leaves every file
state unchanged, and prints nothing: the error precedes any write. -/
theorem claim_C5 (fs : FileState)
    (h : fs = FileState.missing ∨ fs = FileState.noPermission) :
    (runScript fs).result = ScriptOutcome.fileAccessError ∧
    (runScript fs).fs = fs ∧ (runScript fs).stdout = [] := by
  rcases h with rfl | rfl
  · exact ⟨rfl, rfl, rfl⟩
  · exact ⟨rfl, rfl, rfl⟩

theorem claim_C5_witness :
    (FileState.missing = FileState.missing ∨
      FileState.missing = FileState.noPermission) ∧
    ((runScript FileState.missing).result = ScriptOutcome.fileAccessError ∧
      (runScript FileState.missing).fs = FileState.missing ∧
      (runScript FileState.missing).stdout = []) :=
  ⟨Or.inl rfl, claim_C5 FileState.missing (Or.inl rfl)⟩

/-- C6: when the target file holds bytes that are not valid UTF-8, the run
fails with a decode error raised during the read, leaves the file unchanged,
and performs no write and no print. -/
theorem claim_C6 :
    (runScript (FileState.present FileData.binary)).result =
        ScriptOutcome.decodeError ∧
    (runScript (FileState.present FileData.binary)).fs =
        FileState.present FileData.binary ∧
    (runScript (FileState.present FileData.binary)).stdout = [] :=
  ⟨rfl, rfl, rfl⟩

/-- C7: matching is by code-point-exact equality only, with no Unicode
normalisation, and all surrounding Unicode text is preserved unchanged: a
content with no exact occurrence (including any normalisation variant of the
literal) is left untouched, and around an exact occurrence arbitrary Unicode
context survives the substitution verbatim. -/
theorem claim_C7 :
    (∀ content, containsB old_text content = false →
      patchContent content = content) ∧
    (∀ a b, containsB old_text (a ++ old_text.dropLast) = false →
      containsB old_text b = false →
      patchContent (a ++ old_text ++ b) = a ++ new_text ++ b) := by
  refine ⟨fun content h => patch_noop h, fun a b ha hb => ?_⟩
  rw [patch_append ha, patch_noop hb]

theorem claim_C7_witness :
    (containsB old_text curlyVariant = false ∧
      patchContent curlyVariant = curlyVariant) ∧
    (containsB old_text (uniA ++ old_text.dropLast) = false ∧
      containsB old_text uniB = false ∧
      patchContent (uniA ++ old_text ++ uniB) = uniA ++ new_text ++ uniB) :=
  ⟨⟨by decide, claim_C7.1 curlyVariant (by decide)⟩,
    ⟨by decide, by decide, claim_C7.2 uniA uniB (by decide) (by decide)⟩⟩

/-- C8: a successful run emits exactly one line on standard output, the fixed
confirmation, and emits it only after the write has completed: in the run
trace the write event strictly precedes the single print event. -/
theorem claim_C8 (content : List Char) :
    (scriptTrace content).filter isPrinted =
      [Event.printedLine ("Replacement complete")] ∧
    ∃ i j : Nat, i < j ∧
      (scriptTrace content)[i]? = some (Event.writeDone (patchContent content)) ∧
      (scriptTrace content)[j]? = some (Event.printedLine ("Replacement complete")) :=
  ⟨rfl, 1, 2, by omega, rfl, rfl⟩

/-- C9: the run result is a deterministic function of the initial file
content alone: two runs from equal contents produce equal outcomes, and the
outcome is exactly the pure function of the content (written file and printed
message included). -/
theorem claim_C9 (c1 c2 : List Char) (h : c1 = c2) :
    runScript (FileState.present (FileData.text c1)) =
      runScript (FileState.present (FileData.text c2)) ∧
    runScript (FileState.present (FileData.text c1)) =
      ⟨ScriptOutcome.ok, FileState.present (FileData.text (patchContent c1)),
        [("Replacement complete")]⟩ := by
  subst h
  exact ⟨rfl, rfl⟩

theorem claim_C9_witness :
    ("sample").data = ("sample").data ∧
    (runScript (FileState.present (FileData.text (("sample").data))) =
        runScript (FileState.present (FileData.text (("sample").data))) ∧
      runScript (FileState.present (FileData.text (("sample").data))) =
        ⟨ScriptOutcome.ok,
          FileState.present (FileData.text (patchContent (("sample").data))),
          [("Replacement complete")]⟩) :=
  ⟨rfl, claim_C9 (("sample").data) (("sample").data) rfl⟩

/-- C10 as stated is false in its second half: `new_text` indeed never
contains `old_text`, but replacing can create a fresh occurrence of
`old_text` spanning the end of an inserted `new_text` and the following
text, so the transformation is not unconditionally idempotent.  Concretely,
on `old_text ++ old_text.drop 1 ++ " x"` the first run output contains
`old_text` and a second run changes it again. -/
theorem claim_C10_counterexample :
    containsB old_text
        (patchContent (old_text ++ old_text.drop 1 ++ (" x").data)) = true ∧
    patchContent (patchContent (old_text ++ old_text.drop 1 ++ (" x").data)) ≠
      patchContent (old_text ++ old_text.drop 1 ++ (" x").data) := by
  constructor
  · decide
  · decide

/-- C10 amended: `new_text` does not contain `old_text` as a substring, and
the transformation is idempotent on every content whose first-run output
contains no occurrence of `old_text`; it is not idempotent unconditionally,
because a replacement can create a new occurrence spanning the end of the
inserted text. -/
theorem claim_C10_amended :
    containsB old_text new_text = false ∧
    (∀ content, containsB old_text (patchContent content) = false →
      patchContent (patchContent content) = patchContent content) :=
  ⟨by decide, fun _ h => patch_noop h⟩

theorem claim_C10_witness :
    containsB old_text new_text = false ∧
    containsB old_text (patchContent (("plain text").data)) = false ∧
    patchContent (patchContent (("plain text").data)) =
      patchContent (("plain text").data) :=
  ⟨claim_C10_amended.1, by decide,
    claim_C10_amended.2 (("plain text").data) (by decide)⟩

end TempFixQuote
